import Mathlib

/-!
# Verification of the drum-variation engine

Shallow embedding of the variation-generation core of `drum-variation-web`
(`src/lib/audioProcessor.js`, `src/lib/mlProcessor.js` and the orchestration
hook `useHybridAudioProcessor.js`).  Sample values, rates and parameters are
modelled as exact rationals (`ℚ`); JS `Math.floor` becomes `Int.floor`;
per-channel `Float32Array`s become `List ℚ` (out-of-range writes are ignored
by JS typed arrays exactly as `List.set` ignores them).  The JS library
functions that have no exact rational counterpart (`Math.sqrt`, `Math.tanh`,
`Math.exp`, `Math.pow(2, ·)`) are abstracted into a `MathOps` bundle whose
fields are constrained by the algebraic facts of the real functions that the
proofs actually use (all of which hold exactly in IEEE double arithmetic at
the points in question).  `Math.random()` is modelled as an explicit stream
of draws in `[0,1)` passed to the operations that consume it.
-/

namespace DrumVar

/-- Abstraction of the JS `Math` library functions used by the processors.
The constraint fields record exact facts about the real `Math.sqrt`,
`Math.tanh` and `Math.pow(2,·)` (IEEE doubles satisfy all of them exactly)
that the development relies on. -/
structure MathOps where
  sqrt : ℚ → ℚ
  tanh : ℚ → ℚ
  exp : ℚ → ℚ
  pow2 : ℚ → ℚ
  sqrt_zero : sqrt 0 = 0
  sqrt_one : sqrt 1 = 1
  tanh_zero : tanh 0 = 0
  exp_zero : exp 0 = 1
  pow2_one : pow2 1 = 2
  pow2_negOne : pow2 (-1) = 1/2

/-- A concrete computable instance of `MathOps`, used only to instantiate
witnesses and counterexamples; it agrees with the real functions at every
point at which a proof below evaluates it. -/
def refOps : MathOps where
  sqrt := fun q => if q = 0 then 0 else 1
  tanh := fun _ => 0
  exp := fun _ => 1
  pow2 := fun q => if q = 1 then 2 else if q = -1 then 1/2 else 1
  sqrt_zero := rfl
  sqrt_one := rfl
  tanh_zero := rfl
  exp_zero := rfl
  pow2_one := rfl
  pow2_negOne := rfl

/-- A significant peak: `{ index, value, time }` as pushed by
`MLProcessor.findSignificantPeaks`. -/
structure Peak where
  index : ℕ
  value : ℚ
  time : ℚ
deriving DecidableEq, Repr

/-- The FeatureSet returned by `MLProcessor.extractFeatures`. -/
structure FeatureSet where
  attackTime : ℚ
  decayTime : ℚ
  sustainLevel : ℚ
  releaseTime : ℚ
  energy : ℚ
  spectralCentroid : ℚ
  peakValue : ℚ
  peakIndex : ℕ
  duration : ℚ
  dynamicRange : ℚ
  transientDensity : ℚ
  significantPeaks : List Peak
deriving DecidableEq, Repr

/-- The `focus` option of `MLProcessor.modifyFeatures`
(`'attack' | 'decay' | 'sustain' | 'release' | 'tone' | 'balanced'`). -/
inductive Focus where
  | attack | decay | sustain | release | tone | balanced
deriving DecidableEq, Repr

/-- A PCM sample buffer: per-channel sample lists plus a sample rate
(the Web Audio `AudioBuffer`). -/
structure AudioBuffer where
  channels : List (List ℚ)
  sampleRate : ℚ
deriving DecidableEq, Repr

/-- Model of `AudioBuffer.length`: the frame count (all channels of a well-formed
buffer share it; we read it off the first channel). -/
def bufLength (b : AudioBuffer) : ℕ := (b.channels.headD []).length

/-- Model of `AudioBuffer.duration = length / sampleRate`. -/
def bufDuration (b : AudioBuffer) : ℚ := (bufLength b : ℚ) / b.sampleRate

/-- All samples of every channel are zero (a silent buffer). -/
def SilentBuf (b : AudioBuffer) : Prop :=
  ∀ ch ∈ b.channels, ∀ x ∈ ch, x = 0

instance (b : AudioBuffer) : Decidable (SilentBuf b) := by
  unfold SilentBuf; infer_instance

/-- All samples of a channel are zero. -/
def ZeroCh (l : List ℚ) : Prop := ∀ x ∈ l, x = 0

instance (l : List ℚ) : Decidable (ZeroCh l) := by
  unfold ZeroCh; infer_instance

theorem ZeroCh.getD {l : List ℚ} (h : ZeroCh l) (i : ℕ) : l.getD i 0 = 0 := by
  rw [List.getD_eq_getElem?_getD]
  rcases h' : l[i]? with _ | x
  · rfl
  · exact h x (List.getElem?_mem h')

/-! ## Effect Library (`AudioProcessor`, src/lib/audioProcessor.js) -/

/-- Envelope-follower scan of `AudioProcessor.processTransientEnhancement`:
the envelope is updated with the attack or release time constant, then the
sample is flagged as a transient when `|sample| > envelope * threshold` and
scaled by `attackGain`, otherwise by `sustainGain`. -/
def transientGo (attackSamples releaseSamples attackGain sustainGain threshold : ℚ)
    (env : ℚ) : List ℚ → List ℚ
  | [] => []
  | x :: xs =>
    let inputSample := |x|
    let env' := if inputSample > env then env + (inputSample - env) / attackSamples
      else env + (inputSample - env) / releaseSamples
    let isTransient := inputSample > env' * threshold
    (x * (if isTransient then attackGain else sustainGain)) ::
      transientGo attackSamples releaseSamples attackGain sustainGain threshold env' xs

/-- Model of `AudioProcessor.processTransientEnhancement(buffer, attackGain, sustainGain)`.
`isLikelyLoop` here is the effect's own duration test (`buffer.duration > 2.0`). -/
def processTransientEnhancement (b : AudioBuffer) (attackGain sustainGain : ℚ) :
    AudioBuffer :=
  let isLikelyLoop := bufDuration b > 2
  let attackTime : ℚ := if isLikelyLoop then 2/1000 else 5/1000
  let releaseTime : ℚ := if isLikelyLoop then 2/100 else 5/100
  let attackSamples : ℚ := (⌊attackTime * b.sampleRate⌋ : ℚ)
  let releaseSamples : ℚ := (⌊releaseTime * b.sampleRate⌋ : ℚ)
  let threshold : ℚ := if isLikelyLoop then 12/10 else 15/10
  { channels := b.channels.map
      (transientGo attackSamples releaseSamples attackGain sustainGain threshold 0),
    sampleRate := b.sampleRate }

/-- One output sample of `AudioProcessor.processPitchShift`: linear
interpolation at `readIndex = i * pitchRate`; when both taps run past the
input the zero-initialised output sample is left untouched.  (`readIndex` is
nonnegative whenever the rate is, as `2^(semitones/12)` always is; `Int.toNat`
is exercised only there.) -/
def interpSample (input : List ℚ) (rate : ℚ) (i : ℕ) : ℚ :=
  let readIndex : ℚ := (i : ℚ) * rate
  let readIndex1 : ℕ := (⌊readIndex⌋).toNat
  let readIndex2 : ℕ := readIndex1 + 1
  let fraction : ℚ := readIndex - (⌊readIndex⌋ : ℚ)
  if readIndex2 < input.length then
    input.getD readIndex1 0 * (1 - fraction) + input.getD readIndex2 0 * fraction
  else if readIndex1 < input.length then input.getD readIndex1 0
  else 0

/-- One channel of `AudioProcessor.processPitchShift`: the output has exactly
the input's length. -/
def pitchShiftChannel (rate : ℚ) (input : List ℚ) : List ℚ :=
  (List.range input.length).map (interpSample input rate)

/-- Model of `AudioProcessor.processPitchShift(buffer, semitones)`, with
`pitchRatio = Math.pow(2, semitones / 12)` supplied by `MathOps.pow2`. -/
def processPitchShift (ops : MathOps) (b : AudioBuffer) (semitones : ℚ) : AudioBuffer :=
  let rate := ops.pow2 (semitones / 12)
  { channels := b.channels.map (pitchShiftChannel rate), sampleRate := b.sampleRate }

/-- One sample of `AudioProcessor.processBitCrush`: scale `[-1,1]` to `[0,1]`,
quantise to `steps` levels with `Math.floor`, rescale. -/
def bitCrushSample (steps : ℚ) (x : ℚ) : ℚ :=
  let scaled := (x + 1) / 2
  let quantized := (⌊scaled * steps⌋ : ℚ) / steps
  quantized * 2 - 1

/-- Model of `AudioProcessor.processBitCrush(buffer, bits)` with `steps = 2^bits`. -/
def processBitCrush (b : AudioBuffer) (bits : ℤ) : AudioBuffer :=
  let steps : ℚ := 2 ^ bits
  { channels := b.channels.map (List.map (bitCrushSample steps)),
    sampleRate := b.sampleRate }

/-- Model of `AudioProcessor.processDistortion(buffer, amount)`:
`output = Math.tanh(input * amount)`. -/
def processDistortion (ops : MathOps) (b : AudioBuffer) (amount : ℚ) : AudioBuffer :=
  { channels := b.channels.map (List.map (fun x => ops.tanh (x * amount))),
    sampleRate := b.sampleRate }

/-- Sample `j` of impulse-response channel `c` in
`AudioProcessor.processReverb`: decaying noise
`(Math.random()*2 - 1) * Math.exp(-j / (impulseLength * 0.5))`, where the
global `Math.random` stream is modelled by `noise` and channel `c` consumes
draws `c*impulseLen + 0, …, c*impulseLen + (impulseLen-1)`. -/
def impulseData (ops : MathOps) (noise : ℕ → ℚ) (impulseLen : ℕ) (c j : ℕ) : ℚ :=
  (noise (c * impulseLen + j) * 2 - 1) * ops.exp (-(j : ℚ) / ((impulseLen : ℚ) * (1/2)))

/-- One channel of `AudioProcessor.processReverb`: copy the dry signal scaled
by `1 - wetDry` into a zero-initialised buffer of `outLen` samples, then the
direct-form convolution `outputData[i+j] += inputData[i] * impulse[j] * wetDry`
(out-of-range writes are dropped, as for a JS typed array). -/
def reverbChannel (wetDry : ℚ) (outLen : ℕ) (imp : ℕ → ℚ) (impulseLen : ℕ)
    (input : List ℚ) : List ℚ :=
  let dry := (List.range outLen).map
    (fun i => if i < input.length then input.getD i 0 * (1 - wetDry) else 0)
  (List.range input.length).foldl
    (fun out i =>
      (List.range impulseLen).foldl
        (fun out2 j =>
          if i + j < out2.length then
            out2.set (i + j) (out2.getD (i + j) 0 + input.getD i 0 * imp j * wetDry)
          else out2)
        out)
    dry

/-- Model of `AudioProcessor.processReverb(buffer, roomSize, wetDry)`: output extended
by 0.5 s (loop) / 1.0 s (one-shot); impulse of `⌊sampleRate*roomSize⌋`
samples; buffer channel `c` convolves with impulse channel `c % 2`. -/
def processReverb (ops : MathOps) (noise : ℕ → ℚ) (b : AudioBuffer)
    (roomSize wetDry : ℚ) : AudioBuffer :=
  let isLikelyLoop := bufDuration b > 2
  let extraTime : ℚ := if isLikelyLoop then 1/2 else 1
  let outLen := bufLength b + (⌊b.sampleRate * extraTime⌋).toNat
  let impulseLen := (⌊b.sampleRate * roomSize⌋).toNat
  { channels := b.channels.enum.map
      (fun p => reverbChannel wetDry outLen
        (impulseData ops noise impulseLen (p.1 % 2)) impulseLen p.2),
    sampleRate := b.sampleRate }

/-- One delay tap: `outputData[i + delaySamples] += inputData[i] * currentFeedback`
for every input index (out-of-range writes dropped). -/
def delayTap (input : List ℚ) (ds : ℕ) (cf : ℚ) (out : List ℚ) : List ℚ :=
  (List.range input.length).foldl
    (fun o i =>
      if i + ds < o.length then o.set (i + ds) (o.getD (i + ds) 0 + input.getD i 0 * cf)
      else o)
    out

/-- The tap `while` loop of `AudioProcessor.processDelay`:
`while (currentFeedback > 0.01 && tapCount < maxTaps)` — terminating because
`maxTaps - tapCount` strictly decreases.  Returns the output buffer and the
final tap count. -/
def delayLoop (input : List ℚ) (ds : ℕ) (fb : ℚ) (maxTaps : ℕ)
    (out : List ℚ) (cf : ℚ) (tapCount : ℕ) : List ℚ × ℕ :=
  if h : cf > 1/100 ∧ tapCount < maxTaps then
    delayLoop input ds fb maxTaps (delayTap input ds cf out) (cf * fb) (tapCount + 1)
  else (out, tapCount)
termination_by maxTaps - tapCount
decreasing_by omega

/-- One channel of `AudioProcessor.processDelay`: original signal copied into
a zero-initialised buffer of `outLen` samples, then the tap loop starting at
`currentFeedback = feedback`, `tapCount = 0`. -/
def delayChannel (ds maxTaps : ℕ) (fb : ℚ) (outLen : ℕ) (input : List ℚ) :
    List ℚ × ℕ :=
  let out0 := (List.range outLen).map (fun i => if i < input.length then input.getD i 0 else 0)
  delayLoop input ds fb maxTaps out0 fb 0

/-- Model of `AudioProcessor.processDelay(buffer, delayTime, feedback)` (the current
`src/lib/audioProcessor.js`): tail of 0.5 s (loop) / 1.0 s (one-shot),
`delaySamples = ⌊delayTime*sampleRate⌋`, `maxTaps = 3` when
`buffer.duration > 2.0` else `10`. -/
def processDelay (b : AudioBuffer) (delayTime fb : ℚ) : AudioBuffer :=
  let isLikelyLoop := bufDuration b > 2
  let extraTime : ℚ := if isLikelyLoop then 1/2 else 1
  let outLen := bufLength b + (⌊b.sampleRate * extraTime⌋).toNat
  let ds := (⌊delayTime * b.sampleRate⌋).toNat
  let maxTaps : ℕ := if isLikelyLoop then 3 else 10
  { channels := b.channels.map (fun ch => (delayChannel ds maxTaps fb outLen ch).1),
    sampleRate := b.sampleRate }

/-- The tap count `processDelay` performs on a channel (identical for all
channels: the loop condition involves only the feedback and the counter). -/
def processDelayTapCount (b : AudioBuffer) (delayTime fb : ℚ) : ℕ :=
  let isLikelyLoop := bufDuration b > 2
  let extraTime : ℚ := if isLikelyLoop then 1/2 else 1
  let outLen := bufLength b + (⌊b.sampleRate * extraTime⌋).toNat
  let ds := (⌊delayTime * b.sampleRate⌋).toNat
  let maxTaps : ℕ := if isLikelyLoop then 3 else 10
  (delayChannel ds maxTaps fb outLen (b.channels.headD [])).2

/-! ## Feature extraction and resynthesis (`MLProcessor`, src/lib/mlProcessor.js) -/

/-- The running maximum `maxValue = max(maxValue, Math.abs(data[i]))`
(initialised to 0) used by `findSignificantPeaks`. -/
def maxAbs (data : List ℚ) : ℚ := data.foldl (fun m x => max m |x|) 0

/-- The inner local-maximum check of `MLProcessor.findSignificantPeaks`:
no `j ∈ [i-W, i+W)`, `j ≠ i`, has `|data[j]| > |data[i]|`. -/
def IsLocalPeak (data : List ℚ) (w i : ℕ) : Prop :=
  ∀ j < i + w, i - w ≤ j → j ≠ i → |data.getD j 0| ≤ |data.getD i 0|

instance (data : List ℚ) (w i : ℕ) : Decidable (IsLocalPeak data w i) := by
  unfold IsLocalPeak; infer_instance

/-- The scan of `MLProcessor.findSignificantPeaks`: from index `i` while
`i < data.length - windowSize`, accept a point when it exceeds
`0.3 * maxValue` and is the largest magnitude within `±windowSize`, then skip
one window ahead (`i += windowSize` plus the `for` increment). -/
def findPeaksGo (data : List ℚ) (sr : ℚ) (w : ℕ) (mv : ℚ) (i : ℕ) : List Peak :=
  if h : i + w < data.length then
    let currentValue := |data.getD i 0|
    if currentValue > mv * (3/10) ∧ IsLocalPeak data w i then
      ⟨i, currentValue, (i : ℚ) / sr⟩ :: findPeaksGo data sr w mv (i + w + 1)
    else findPeaksGo data sr w mv (i + 1)
  else []
termination_by data.length - i
decreasing_by all_goals omega

/-- Model of `MLProcessor.findSignificantPeaks(data, sampleRate)`: 10 ms window,
threshold 0.3 of the global maximum. -/
def findSignificantPeaks (data : List ℚ) (sr : ℚ) : List Peak :=
  let w := (⌊sr * (1/100)⌋).toNat
  findPeaksGo data sr w (maxAbs data) w

/-- The main-peak scan of `extractFeatures`: strict improvements of
`|data[i]|` starting from `(peakValue, peakIndex) = (0, 0)`. -/
def mainPeak (data : List ℚ) : ℚ × ℕ :=
  data.enum.foldl (fun p q => if |q.2| > p.1 then (|q.2|, q.1) else p) (0, 0)

/-- The decay scan of `extractFeatures`: first index `i ≥ peakIndex` with
`|data[i]| < decayThreshold`, else `peakIndex` itself. -/
def decayIndexFrom (data : List ℚ) (pi : ℕ) (thr : ℚ) : ℕ :=
  match (data.drop pi).findIdx? (fun x => decide (|x| < thr)) with
  | some k => pi + k
  | none => pi

/-- Sum `Σ |data[i]|` for `i ∈ [a, b)` (clipped to the list), as in the sustain
window sum of `extractFeatures`. -/
def sumAbsRange (data : List ℚ) (a b : ℕ) : ℚ :=
  ((data.drop a).take (b - a)).foldl (fun s x => s + |x|) 0

/-- The zero-crossing count of `extractFeatures`: sign changes between
consecutive samples (`(d[i] ≥ 0 ∧ d[i-1] < 0) ∨ (d[i] < 0 ∧ d[i-1] ≥ 0)`). -/
def zeroCrossings (data : List ℚ) : ℕ :=
  (data.zip data.tail).countP
    (fun p => decide ((p.2 ≥ 0 ∧ p.1 < 0) ∨ (p.2 < 0 ∧ p.1 ≥ 0)))

/-- Model of `MLProcessor.extractFeatures(buffer)` on the first channel. -/
def extractFeatures (b : AudioBuffer) : FeatureSet :=
  let data := b.channels.headD []
  let len := data.length
  let significantPeaks := findSignificantPeaks data b.sampleRate
  let pk := mainPeak data
  let peakValue := pk.1
  let peakIndex := pk.2
  let attackTime := (peakIndex : ℚ) / b.sampleRate
  let decayIndex := decayIndexFrom data peakIndex (peakValue * (1/4))
  let decayTime := ((decayIndex - peakIndex : ℕ) : ℚ) / b.sampleRate
  let sustainStart := min decayIndex (⌊(len : ℚ) * (3/10)⌋).toNat
  let sustainEnd := (⌊(len : ℚ) * (7/10)⌋).toNat
  let sustainDen : ℕ := if sustainEnd - sustainStart = 0 then 1 else sustainEnd - sustainStart
  let sustainLevel := sumAbsRange data sustainStart sustainEnd / (sustainDen : ℚ)
  let releaseStart := (⌊(len : ℚ) * (7/10)⌋).toNat
  let releaseTime := ((len - releaseStart : ℕ) : ℚ) / b.sampleRate
  let energy := data.foldl (fun s x => s + x * x) 0 / (len : ℚ)
  let spectralCentroid := (zeroCrossings data : ℚ) / (len : ℚ) * b.sampleRate / 2
  let dMin := data.foldl min 1
  let dMax := data.foldl max (-1)
  { attackTime := attackTime
    decayTime := decayTime
    sustainLevel := sustainLevel
    releaseTime := releaseTime
    energy := energy
    spectralCentroid := spectralCentroid
    peakValue := peakValue
    peakIndex := peakIndex
    duration := bufDuration b
    dynamicRange := dMax - dMin
    transientDensity := (significantPeaks.length : ℚ) / bufDuration b
    significantPeaks := significantPeaks }

/-- Model of `MLProcessor.isLikelyLoop(features)`:
`significantPeaks.length > 3 || duration > 2.0`. -/
def isLikelyLoop (f : FeatureSet) : Bool :=
  decide (f.significantPeaks.length > 3) || decide (f.duration > 2)

/-- The `randomize` closure of `MLProcessor.modifyFeatures`:
`value * (1 + (r*2 - 1) * range * amount * focusFactor)` where `r` is the
`Math.random()` draw. -/
def randomize (r value range amount focusFactor : ℚ) : ℚ :=
  value * (1 + (r * 2 - 1) * range * amount * focusFactor)

/-- Model of `MLProcessor.modifyFeatures(features, amount, options, isLoop)`.  The
global `Math.random` stream is modelled by `rnd`; the six scalar draws take
indices 0–5 in call order, and the per-peak index/value draws take `6+2k` and
`7+2k` for peak `k`. -/
def modifyFeatures (rnd : ℕ → ℚ) (f : FeatureSet) (amount : ℚ) (focus : Focus)
    (isLoop : Bool) : FeatureSet :=
  let attackFocus : ℚ := if focus = Focus.attack then 2 else 1
  let decayFocus : ℚ := if focus = Focus.decay then 2 else 1
  let sustainFocus : ℚ := if focus = Focus.sustain then 2 else 1
  let releaseFocus : ℚ := if focus = Focus.release then 2 else 1
  let toneFocus : ℚ := if focus = Focus.tone then 2 else 1
  let energyRange : ℚ := if isLoop then 2/10 else 4/10
  { f with
    attackTime := randomize (rnd 0) f.attackTime (7/10) amount attackFocus
    decayTime := randomize (rnd 1) f.decayTime (8/10) amount decayFocus
    sustainLevel := randomize (rnd 2) f.sustainLevel (6/10) amount sustainFocus
    releaseTime := randomize (rnd 3) f.releaseTime (9/10) amount releaseFocus
    spectralCentroid := randomize (rnd 4) f.spectralCentroid (6/10) amount toneFocus
    energy := randomize (rnd 5) f.energy energyRange amount 1
    significantPeaks :=
      if isLoop ∧ 0 < f.significantPeaks.length then
        f.significantPeaks.enum.map (fun p =>
          { p.2 with
            index := (⌊randomize (rnd (6 + 2 * p.1)) (p.2.index : ℚ) (2/100) amount 1⌋).toNat
            value := randomize (rnd (7 + 2 * p.1)) p.2.value (1/10) amount 1 })
      else f.significantPeaks }

/-- One output sample of `MLProcessor.processOneShot`: the four-phase
envelope (attack/decay time-remap, sustain scale, release fade).  Envelope
boundaries are the JS `Math.floor` values as integers (mutated features may
make them negative). -/
def oneShotSample (input : List ℚ) (f : FeatureSet) (outLen : ℕ) (i : ℕ) : ℚ :=
  let len := input.length
  let attackEnd : ℤ := ⌊f.attackTime * f.peakValue * (len : ℚ)⌋
  let decayEnd : ℤ := attackEnd + ⌊f.decayTime * (len : ℚ)⌋
  let releaseStart : ℤ := ⌊(len : ℚ) * (7/10)⌋
  if (i : ℤ) < attackEnd then
    let originalIndex : ℤ := ⌊(i : ℚ) * (f.peakIndex : ℚ) / (attackEnd : ℚ)⌋
    input.getD (min originalIndex ((len : ℤ) - 1)).toNat 0
  else if (i : ℤ) < decayEnd then
    let decayPosition : ℚ := ((i : ℚ) - (attackEnd : ℚ)) / ((decayEnd : ℚ) - (attackEnd : ℚ))
    let originalDecayIndex : ℤ := ⌊(f.peakIndex : ℚ) + decayPosition * (f.decayTime * (len : ℚ))⌋
    input.getD (min originalDecayIndex ((len : ℤ) - 1)).toNat 0
  else if (i : ℤ) < releaseStart then
    input.getD i 0 * (f.sustainLevel / (1/4))
  else
    let releasePosition : ℚ := ((i : ℚ) - (releaseStart : ℚ)) / ((outLen : ℚ) - (releaseStart : ℚ))
    let releaseValue : ℚ := 1 - releasePosition * (f.releaseTime / (3/10))
    input.getD i 0 * max 0 releaseValue

/-- Model of `MLProcessor.processOneShot(inputData, outputData, features)`. -/
def processOneShot (input : List ℚ) (f : FeatureSet) (outLen : ℕ) : List ℚ :=
  (List.range outLen).map (oneShotSample input f outLen)

/-- One inter-peak segment pass of `MLProcessor.processLoopAudio`: skipped
when shorter than 10 samples, otherwise every position in
`[segStart, min segEnd out.length)` is overwritten with
`input[i] * envelopeFactor(i)`. -/
def segmentWrite (input : List ℚ) (f : FeatureSet) (segStart segEnd : ℕ)
    (out : List ℚ) : List ℚ :=
  let segLen : ℤ := (segEnd : ℤ) - (segStart : ℤ)
  if segLen < 10 then out
  else
    let attackEnd : ℤ := (segStart : ℤ) + ⌊(segLen : ℚ) * (1/10) * f.attackTime / (1/100)⌋
    let decayEnd : ℤ := (segStart : ℤ) + ⌊(segLen : ℚ) * (3/10)⌋
    let releaseStart : ℤ := (segStart : ℤ) + ⌊(segLen : ℚ) * (7/10)⌋
    let value := fun (i : ℕ) =>
      if (i : ℤ) < attackEnd then
        let attackPosition : ℚ := ((i : ℚ) - (segStart : ℚ)) / ((attackEnd : ℚ) - (segStart : ℚ))
        input.getD i 0 * (attackPosition * (2 - f.attackTime / (1/100)))
      else if (i : ℤ) < decayEnd then
        let decayPosition : ℚ := ((i : ℚ) - (attackEnd : ℚ)) / ((decayEnd : ℚ) - (attackEnd : ℚ))
        input.getD i 0 * (1 - decayPosition * (1 - f.sustainLevel / (1/4)) * (f.decayTime / (5/100)))
      else if (i : ℤ) < releaseStart then
        input.getD i 0 * (f.sustainLevel / (1/4))
      else
        let releasePosition : ℚ := ((i : ℚ) - (releaseStart : ℚ)) / ((segEnd : ℚ) - (releaseStart : ℚ))
        let releaseValue : ℚ := (f.sustainLevel / (1/4)) * (1 - releasePosition * (f.releaseTime / (1/10)))
        input.getD i 0 * max 0 releaseValue
    (List.range' segStart (min segEnd out.length - segStart)).foldl
      (fun o i => o.set i (value i)) out

/-- Model of `MLProcessor.processLoopAudio(inputData, outputData, features)`: verbatim
copy, then (when more than one significant peak) one `segmentWrite` per peak,
the last segment ending at the input length. -/
def processLoopAudio (input : List ℚ) (f : FeatureSet) (outLen : ℕ) : List ℚ :=
  let out0 := (List.range outLen).map (fun i => if i < input.length then input.getD i 0 else 0)
  if 1 < f.significantPeaks.length then
    (List.range f.significantPeaks.length).foldl
      (fun o p =>
        let segStart := (f.significantPeaks.getD p ⟨0, 0, 0⟩).index
        let segEnd := if p + 1 < f.significantPeaks.length then
            (f.significantPeaks.getD (p + 1) ⟨0, 0, 0⟩).index
          else input.length
        segmentWrite input f segStart segEnd o)
      out0
  else out0

/-- The high-frequency boost scan of `applySpectralAdjustment`
(`data[i] += (data[i] - data[i-1]) * (ratio - 1) * 0.5`, where `data[i-1]` is
the already-updated value). -/
def boostGo (c : ℚ) (prev : ℚ) : List ℚ → List ℚ
  | [] => []
  | x :: xs => let y := x + (x - prev) * c; y :: boostGo c y xs

/-- The one-pole low-pass scan of `applySpectralAdjustment`
(`data[i] = data[i]*ratio + prevOutput*(1 - ratio)`). -/
def lowpassGo (r : ℚ) (prev : ℚ) : List ℚ → List ℚ
  | [] => []
  | x :: xs => let y := x * r + prev * (1 - r); y :: lowpassGo r y xs

/-- Model of `MLProcessor.applySpectralAdjustment(data, spectralRatio)`: boost when
the ratio exceeds 1, low-pass when below 1, untouched at exactly 1. -/
def applySpectralAdjustment (data : List ℚ) (r : ℚ) : List ℚ :=
  if 1 < r then
    match data with
    | [] => []
    | d0 :: rest => d0 :: boostGo ((r - 1) * (1/2)) d0 rest
  else if r < 1 then
    match data with
    | [] => []
    | d0 :: rest => d0 :: lowpassGo r d0 rest
  else data

/-- The energy-correction factor of `MLProcessor.synthesizeAudio`:
`Math.sqrt(features.energy / (features.energy > 0 ? features.energy : 0.0001))`. -/
def energyFactor (ops : MathOps) (f : FeatureSet) : ℚ :=
  ops.sqrt (f.energy / (if 0 < f.energy then f.energy else 1/10000))

/-- The spectral ratio of `MLProcessor.synthesizeAudio`:
`features.spectralCentroid / (features.spectralCentroid > 0 ? features.spectralCentroid : 0.0001)`. -/
def spectralFactor (f : FeatureSet) : ℚ :=
  f.spectralCentroid / (if 0 < f.spectralCentroid then f.spectralCentroid else 1/10000)

/-- One channel of `MLProcessor.synthesizeAudio`: loop or one-shot envelope
pass, then the energy multiply, then the spectral adjustment. -/
def synthesizeChannel (ops : MathOps) (f : FeatureSet) (isLoop : Bool) (outLen : ℕ)
    (input : List ℚ) : List ℚ :=
  let stage1 := if isLoop then processLoopAudio input f outLen else processOneShot input f outLen
  let stage2 := stage1.map (· * energyFactor ops f)
  applySpectralAdjustment stage2 (spectralFactor f)

/-- Model of `MLProcessor.synthesizeAudio(originalBuffer, features, isLoop)`. -/
def synthesizeAudio (ops : MathOps) (b : AudioBuffer) (f : FeatureSet) (isLoop : Bool) :
    AudioBuffer :=
  { channels := b.channels.map (synthesizeChannel ops f isLoop (bufLength b)),
    sampleRate := b.sampleRate }

/-- Model of `MLProcessor.generateVariation(buffer, variationAmount, options)`:
extract → classify → mutate → resynthesize. -/
def generateVariation (ops : MathOps) (rnd : ℕ → ℚ) (b : AudioBuffer) (amount : ℚ)
    (focus : Focus) : AudioBuffer :=
  let features := extractFeatures b
  let isLoop := isLikelyLoop features
  let modified := modifyFeatures rnd features amount focus isLoop
  synthesizeAudio ops b modified isLoop

/-! ## Variation orchestrators -/

/-- Model of `AudioProcessor.generateVariations(isLoop)` (src/lib/audioProcessor.js):
the fixed 8-variation DSP recipe.  `noise k` is the `Math.random` stream
consumed by the `k`-th reverb call. -/
def audioGenerateVariations (ops : MathOps) (noise : ℕ → ℕ → ℚ) (b : AudioBuffer)
    (isLoop : Bool) : List AudioBuffer :=
  let v1 := processTransientEnhancement b (if isLoop then 11/10 else 13/10)
    (if isLoop then 95/100 else 85/100)
  let v2 := processPitchShift ops b (if isLoop then 1 else 3)
  let v3 := processPitchShift ops b (if isLoop then -1 else -3)
  let v4 := processBitCrush b (if isLoop then 10 else 8)
  let v5 := processReverb ops (noise 0) b (if isLoop then 1/10 else 3/10)
    (if isLoop then 3/10 else 5/10)
  let v6 := processDelay b (if isLoop then 1/8 else 1/4) (if isLoop then 3/10 else 4/10)
  let pitchShifted := processPitchShift ops b (if isLoop then 1/2 else 1)
  let v7 := processReverb ops (noise 1) pitchShifted (if isLoop then 5/100 else 1/10)
    (if isLoop then 2/10 else 3/10)
  let v8 := if isLoop then processDistortion ops (processDelay b (1/8) (3/10)) 3
    else processBitCrush (processDistortion ops b 10) 6
  [v1, v2, v3, v4, v5, v6, v7, v8]

/-- The `generateVariations` recipe of `useHybridAudioProcessor`
(src/hooks/useHybridAudioProcessor.js): 8 hybrid variations, each
envelope-resynthesis call scaled by the DSP/ML balance.  `rnd k` is the
`Math.random` stream consumed by the `k`-th `generateVariation` call and
`noise 0` the stream consumed by the reverb of variation 7. -/
def hybridGenerateVariations (ops : MathOps) (rnd : ℕ → ℕ → ℚ) (noise : ℕ → ℕ → ℚ)
    (sample : AudioBuffer) (mlBalance : ℚ) (isLoop : Bool) : List AudioBuffer :=
  let v1 := generateVariation ops (rnd 0) sample (6/10 * mlBalance) Focus.attack
  let v2 := generateVariation ops (rnd 1) sample (7/10 * mlBalance) Focus.decay
  let v3 := generateVariation ops (rnd 2) sample (65/100 * mlBalance) Focus.sustain
  let v4 := generateVariation ops (rnd 3) sample (7/10 * mlBalance) Focus.release
  let toneVariation := generateVariation ops (rnd 4) sample (8/10 * mlBalance) Focus.tone
  let v5 := if mlBalance < 7/10 then processBitCrush toneVariation 10 else toneVariation
  let pitchShifted := processPitchShift ops sample (if isLoop then 1 else 3)
  let v6 := generateVariation ops (rnd 5) pitchShifted (5/10 * mlBalance) Focus.balanced
  let reverbed := processReverb ops (noise 0) sample (if isLoop then 1/10 else 3/10)
    (if isLoop then 3/10 else 6/10)
  let v7 := generateVariation ops (rnd 6) reverbed (4/10 * mlBalance)
    (if isLoop then Focus.sustain else Focus.release)
  let extreme := if isLoop then processDistortion ops (processDelay sample (1/8) (3/10)) 3
    else processBitCrush (processDistortion ops sample 8) 6
  let v8 := generateVariation ops (rnd 7) extreme (9/10 * mlBalance) Focus.balanced
  [v1, v2, v3, v4, v5, v6, v7, v8]

/-! ## C1: exactly eight variations per call -/

/-- C1.  For every loaded input buffer, every balance `β ∈ [0,1]`, and both
loop and one-shot classifications, one call to variation generation (the
hybrid hook recipe, and likewise the pure-DSP `AudioProcessor` recipe)
produces exactly 8 output buffers, no more and no fewer. -/
theorem generateVariations_length (ops : MathOps) (rnd noise : ℕ → ℕ → ℚ)
    (b : AudioBuffer) (mlBalance : ℚ) (isLoop : Bool)
    (h0 : 0 ≤ mlBalance) (h1 : mlBalance ≤ 1) :
    (hybridGenerateVariations ops rnd noise b mlBalance isLoop).length = 8 ∧
    (audioGenerateVariations ops noise b isLoop).length = 8 := by
  constructor <;> rfl

/-- Witness for C1 at a concrete one-sample buffer and `β = 0`. -/
theorem generateVariations_length_witness :
    (hybridGenerateVariations refOps (fun _ _ => 0) (fun _ _ => 0)
      ⟨[[1]], 4⟩ 0 false).length = 8 ∧
    (audioGenerateVariations refOps (fun _ _ => 0) ⟨[[1]], 4⟩ false).length = 8 :=
  generateVariations_length refOps (fun _ _ => 0) (fun _ _ => 0) ⟨[[1]], 4⟩ 0 false
    (le_refl 0) zero_le_one

/-! ## C2: the loop classification rule -/

/-- The classification rule exactly as the spec words it: a function of the
pair `(significantPeaks.length, duration)` only. -/
def specLoopClassification (p : ℕ × ℚ) : Bool :=
  decide (3 < p.1) || decide (2 < p.2)

/-- C2.  The loop classification is the hard threshold rule: `isLoop` holds
iff `significantPeaks.length > 3` or `duration > 2.0` seconds, and it factors
through the pair `(significantPeaks.length, duration)` — a deterministic
function of that pair. -/
theorem isLikelyLoop_spec (f : FeatureSet) :
    (isLikelyLoop f = true ↔ (3 < f.significantPeaks.length ∨ 2 < f.duration)) ∧
    isLikelyLoop f = specLoopClassification (f.significantPeaks.length, f.duration) := by
  constructor
  · simp [isLikelyLoop]
  · rfl

/-! ## C9: bit-depth reduction is idempotent -/

theorem bitCrushSample_idem (steps : ℚ) (hs : steps ≠ 0) (x : ℚ) :
    bitCrushSample steps (bitCrushSample steps x) = bitCrushSample steps x := by
  have h1 : ((((⌊(x + 1) / 2 * steps⌋ : ℚ) / steps * 2 - 1) + 1) / 2 * steps)
      = ((⌊(x + 1) / 2 * steps⌋ : ℚ)) := by field_simp; ring
  simp only [bitCrushSample, h1, Int.floor_intCast]

/-- C9.  Bit-depth reduction is idempotent: for every input buffer and every
integer bit depth, applying the reduction to its own output yields exactly
the buffer obtained by applying it once. -/
theorem processBitCrush_idempotent (b : AudioBuffer) (bits : ℤ) :
    processBitCrush (processBitCrush b bits) bits = processBitCrush b bits := by
  have hs : ((2:ℚ) ^ bits) ≠ 0 := zpow_ne_zero _ (by norm_num)
  unfold processBitCrush
  simp only [AudioBuffer.mk.injEq, List.map_map, and_true]
  apply List.map_congr_left
  intro ch _
  simp only [Function.comp_apply]
  rw [List.map_map]
  apply List.map_congr_left
  intro x _
  exact bitCrushSample_idem _ hs x

/-! ## C10: the quantization grid of bit-depth reduction -/

/-- C10.  For samples in `[-1,1]` and bit depth `n ≥ 1`, every output sample
of the `n`-bit reduction lies on the grid `{ 2k/2^n - 1 : k = 0, …, 2^n }`
(at most `2^n + 1` distinct levels), the top level `+1` occurs exactly at
input samples equal to `+1`, and for `n = 8` all `2^8 + 1 = 257` levels are
attainable (each level is a fixed point), so an 8-bit crush can emit up to
257, not 256, distinct values. -/
theorem bitCrush_levels (n : ℕ) (x : ℚ) (hn : 1 ≤ n) (hx1 : -1 ≤ x) (hx2 : x ≤ 1) :
    (∃ k : ℕ, k ≤ 2 ^ n ∧ bitCrushSample ((2:ℚ) ^ (n:ℤ)) x = 2 * (k:ℚ) / 2 ^ n - 1) ∧
    (bitCrushSample ((2:ℚ) ^ (n:ℤ)) x = 1 ↔ x = 1) ∧
    (∀ k : ℕ, k ≤ 2 ^ 8 →
      bitCrushSample ((2:ℚ) ^ ((8:ℕ):ℤ)) (2 * (k:ℚ) / 2 ^ 8 - 1) = 2 * (k:ℚ) / 2 ^ 8 - 1) := by
  have hpow : ((2:ℚ) ^ (n:ℤ)) = (2:ℚ) ^ n := zpow_natCast 2 n
  have hcastS : (((2:ℤ) ^ n : ℤ) : ℚ) = (2:ℚ) ^ n := by push_cast; rfl
  have hpos : (0:ℚ) < 2 ^ n := by positivity
  have hsc0 : (0:ℚ) ≤ (x + 1) / 2 := by linarith
  have hk0 : 0 ≤ ⌊(x + 1) / 2 * ((2:ℚ) ^ n)⌋ :=
    Int.floor_nonneg.2 (mul_nonneg hsc0 (le_of_lt hpos))
  have hkle : ⌊(x + 1) / 2 * ((2:ℚ) ^ n)⌋ ≤ (2 : ℤ) ^ n := by
    have harg : (x + 1) / 2 * ((2:ℚ) ^ n) ≤ (((2:ℤ) ^ n : ℤ) : ℚ) := by
      rw [hcastS]; nlinarith
    have h3 := Int.floor_le_floor harg
    rwa [Int.floor_intCast] at h3
  have hcastk : ((⌊(x + 1) / 2 * ((2:ℚ) ^ n)⌋.toNat : ℕ) : ℚ)
      = ((⌊(x + 1) / 2 * ((2:ℚ) ^ n)⌋ : ℤ) : ℚ) := by
    exact_mod_cast congrArg (fun z : ℤ => (z : ℚ)) (Int.toNat_of_nonneg hk0)
  refine ⟨⟨(⌊(x + 1) / 2 * ((2:ℚ) ^ n)⌋).toNat, ?_, ?_⟩, ⟨?_, ?_⟩, ?_⟩
  · have h := Int.toNat_of_nonneg hk0
    have : ((⌊(x + 1) / 2 * ((2:ℚ) ^ n)⌋.toNat : ℕ) : ℤ) ≤ (2:ℤ) ^ n := by
      rw [h]; exact hkle
    exact_mod_cast this
  · simp only [bitCrushSample, hpow]
    rw [hcastk]
    ring
  · intro h1
    simp only [bitCrushSample, hpow] at h1
    have h2 : ((⌊(x + 1) / 2 * ((2:ℚ) ^ n)⌋ : ℚ)) / 2 ^ n = 1 := by linarith
    have hkeq : ((⌊(x + 1) / 2 * ((2:ℚ) ^ n)⌋ : ℚ)) = 2 ^ n :=
      (div_eq_one_iff_eq (ne_of_gt hpos)).1 h2
    have hkz : ⌊(x + 1) / 2 * ((2:ℚ) ^ n)⌋ = (2:ℤ) ^ n := by
      have := hkeq.trans hcastS.symm
      exact_mod_cast this
    have hge : (((2:ℤ) ^ n : ℤ) : ℚ) ≤ (x + 1) / 2 * ((2:ℚ) ^ n) := by
      rw [← hkz]
      exact Int.floor_le _
    rw [hcastS] at hge
    nlinarith
  · intro hx
    subst hx
    simp only [bitCrushSample, hpow]
    have harg : ((1:ℚ) + 1) / 2 * 2 ^ n = (((2:ℤ) ^ n : ℤ) : ℚ) := by
      rw [hcastS]; ring
    rw [harg, Int.floor_intCast, hcastS]
    field_simp
    try norm_num
  · intro k hk
    simp only [bitCrushSample]
    have h2 : ((2:ℚ) ^ ((8:ℕ):ℤ)) = (2:ℚ) ^ (8:ℕ) := zpow_natCast 2 8
    have hp8 : ((2:ℚ) ^ (8:ℕ)) ≠ 0 := by positivity
    have harg : (2 * (k:ℚ) / 2 ^ (8:ℕ) - 1 + 1) / 2 * ((2:ℚ) ^ (8:ℕ)) = ((k:ℤ):ℚ) := by
      push_cast
      field_simp
      ring
    rw [h2, harg, Int.floor_intCast]
    push_cast
    ring

/-- Witness for C10 at `n = 8`, `x = 1/3`. -/
theorem bitCrush_levels_witness :
    (∃ k : ℕ, k ≤ 2 ^ 8 ∧ bitCrushSample ((2:ℚ) ^ ((8:ℕ):ℤ)) (1/3) = 2 * (k:ℚ) / 2 ^ 8 - 1) ∧
    (bitCrushSample ((2:ℚ) ^ ((8:ℕ):ℤ)) (1/3) = 1 ↔ (1:ℚ)/3 = 1) ∧
    (∀ k : ℕ, k ≤ 2 ^ 8 →
      bitCrushSample ((2:ℚ) ^ ((8:ℕ):ℤ)) (2 * (k:ℚ) / 2 ^ 8 - 1) = 2 * (k:ℚ) / 2 ^ 8 - 1) :=
  bitCrush_levels 8 (1/3) (by norm_num) (by norm_num) (by norm_num)

/-! ## C5: significant peaks are sorted and above threshold -/

theorem findPeaksGo_index_ge (data : List ℚ) (sr : ℚ) (w : ℕ) (mv : ℚ) :
    ∀ n i, data.length - i ≤ n → ∀ p ∈ findPeaksGo data sr w mv i, i ≤ p.index := by
  intro n
  induction n with
  | zero =>
    intro i hle p hp
    rw [findPeaksGo] at hp
    rw [dif_neg (by omega)] at hp
    simp at hp
  | succ n ih =>
    intro i hle p hp
    rw [findPeaksGo] at hp
    by_cases h : i + w < data.length
    · rw [dif_pos h] at hp
      simp only at hp
      split at hp
      · rcases List.mem_cons.1 hp with rfl | hp'
        · exact le_refl _
        · have := ih (i + w + 1) (by omega) p hp'
          omega
      · have := ih (i + 1) (by omega) p hp
        omega
    · rw [dif_neg h] at hp
      simp at hp

theorem findPeaksGo_value_gt (data : List ℚ) (sr : ℚ) (w : ℕ) (mv : ℚ) :
    ∀ n i, data.length - i ≤ n →
      ∀ p ∈ findPeaksGo data sr w mv i, p.value > mv * (3/10) := by
  intro n
  induction n with
  | zero =>
    intro i hle p hp
    rw [findPeaksGo] at hp
    rw [dif_neg (by omega)] at hp
    simp at hp
  | succ n ih =>
    intro i hle p hp
    rw [findPeaksGo] at hp
    by_cases h : i + w < data.length
    · rw [dif_pos h] at hp
      simp only at hp
      split at hp
      next hc =>
        rcases List.mem_cons.1 hp with rfl | hp'
        · exact hc.1
        · exact ih (i + w + 1) (by omega) p hp'
      next hc =>
        exact ih (i + 1) (by omega) p hp
    · rw [dif_neg h] at hp
      simp at hp

theorem findPeaksGo_pairwise (data : List ℚ) (sr : ℚ) (w : ℕ) (mv : ℚ) :
    ∀ n i, data.length - i ≤ n →
      List.Pairwise (fun p q : Peak => p.index < q.index) (findPeaksGo data sr w mv i) := by
  intro n
  induction n with
  | zero =>
    intro i hle
    rw [findPeaksGo]
    rw [dif_neg (by omega)]
    exact List.Pairwise.nil
  | succ n ih =>
    intro i hle
    rw [findPeaksGo]
    by_cases h : i + w < data.length
    · rw [dif_pos h]
      simp only
      split
      · refine List.Pairwise.cons ?_ (ih (i + w + 1) (by omega))
        intro q hq
        have := findPeaksGo_index_ge data sr w mv (data.length - (i + w + 1)) (i + w + 1)
          le_rfl q hq
        simp only
        omega
      · exact ih (i + 1) (by omega)
    · rw [dif_neg h]
      exact List.Pairwise.nil

/-- C5.  For every input buffer, the `significantPeaks` list returned by the
feature extractor is strictly increasing in sample index, and every returned
peak's value is strictly greater than `0.3` times the buffer's global maximum
absolute amplitude. -/
theorem findSignificantPeaks_spec (data : List ℚ) (sr : ℚ) :
    List.Pairwise (fun p q : Peak => p.index < q.index) (findSignificantPeaks data sr) ∧
    ∀ p ∈ findSignificantPeaks data sr, p.value > maxAbs data * (3/10) := by
  unfold findSignificantPeaks
  exact ⟨findPeaksGo_pairwise data sr _ _ _ _ le_rfl,
    findPeaksGo_value_gt data sr _ _ _ _ le_rfl⟩

/-- Witness for C5: on `[0, 1, 0]` at a 100 Hz rate the extractor finds the
single peak `⟨1, 1, 1/100⟩`, whose value exceeds `0.3 × maxAbs`. -/
theorem findSignificantPeaks_spec_witness :
    (⟨1, 1, 1/100⟩ : Peak).value > maxAbs [0, 1, 0] * (3/10) :=
  (findSignificantPeaks_spec [0, 1, 0] 100).2 ⟨1, 1, 1/100⟩ (by
    have h : findSignificantPeaks [0, 1, 0] 100 = [⟨1, 1, 1/100⟩] := by
      unfold findSignificantPeaks
      norm_num [maxAbs]
      rw [findPeaksGo]
      rw [dif_pos (by norm_num)]
      norm_num
      rw [if_pos (by decide)]
      rw [findPeaksGo]
      rw [dif_neg (by norm_num)]
    rw [h]
    exact List.mem_singleton_self _)

/-! ## C7: the self-ratio post-processing steps are the identity -/

/-- C7.  For every mutated FeatureSet with `energy > 0` and
`spectralCentroid > 0`, the envelope synthesizer's post-processing is the
identity: the energy-correction factor `sqrt(energy/energy)` is exactly 1
(so the per-sample multiply changes nothing) and the spectral ratio is
exactly 1 (so neither the boost branch nor the low-pass branch runs). -/
theorem synthesizeAudio_post_identity (ops : MathOps) (f : FeatureSet)
    (he : 0 < f.energy) (hc : 0 < f.spectralCentroid) :
    energyFactor ops f = 1 ∧
    (∀ l : List ℚ, l.map (· * energyFactor ops f) = l) ∧
    spectralFactor f = 1 ∧
    (∀ l : List ℚ, applySpectralAdjustment l (spectralFactor f) = l) := by
  have h1 : energyFactor ops f = 1 := by
    unfold energyFactor
    rw [if_pos he, div_self (ne_of_gt he), ops.sqrt_one]
  have h2 : spectralFactor f = 1 := by
    unfold spectralFactor
    rw [if_pos hc, div_self (ne_of_gt hc)]
  refine ⟨h1, ?_, h2, ?_⟩
  · intro l
    simp [h1]
  · intro l
    rw [h2]
    unfold applySpectralAdjustment
    rw [if_neg (by norm_num), if_neg (by norm_num)]

/-- Witness for C7 at a FeatureSet with `energy = 1`, `spectralCentroid = 1`
and the sample list `[1/2, -1/3]`. -/
theorem synthesizeAudio_post_identity_witness :
    energyFactor refOps ⟨0, 0, 0, 0, 1, 1, 0, 0, 0, 0, 0, []⟩ = 1 ∧
    [(1:ℚ)/2, -1/3].map (· * energyFactor refOps ⟨0, 0, 0, 0, 1, 1, 0, 0, 0, 0, 0, []⟩)
      = [(1:ℚ)/2, -1/3] ∧
    spectralFactor ⟨0, 0, 0, 0, 1, 1, 0, 0, 0, 0, 0, []⟩ = 1 ∧
    applySpectralAdjustment [(1:ℚ)/2, -1/3]
      (spectralFactor ⟨0, 0, 0, 0, 1, 1, 0, 0, 0, 0, 0, []⟩) = [(1:ℚ)/2, -1/3] := by
  have h := synthesizeAudio_post_identity refOps ⟨0, 0, 0, 0, 1, 1, 0, 0, 0, 0, 0, []⟩
    zero_lt_one zero_lt_one
  exact ⟨h.1, h.2.1 _, h.2.2.1, h.2.2.2 _⟩

/-! ## C6: pitch-shift length and direction behaviour (corrected) -/

/-- Counterexample to C6 as stated.  The claim (and spec §4.4) says shifting
up truncates audible content while shifting down leaves trailing silence.
The code does the opposite: on the all-ones 4-sample buffer at rate 4,
shifting down 12 semitones (rate 1/2) produces `[1,1,1,1]` — no trailing
silence anywhere — while shifting up 12 semitones (rate 2) produces
`[1,1,0,0]`: the read index runs past the input and the zero-initialised
tail is left, i.e. the trailing silence is on the *up* shift. -/
theorem processPitchShift_direction_cex :
    (processPitchShift refOps ⟨[[1, 1, 1, 1]], 4⟩ (-12)).channels = [[1, 1, 1, 1]] ∧
    (processPitchShift refOps ⟨[[1, 1, 1, 1]], 4⟩ 12).channels = [[1, 1, 0, 0]] := by
  constructor <;>
  · norm_num [processPitchShift, refOps, pitchShiftChannel, interpSample, List.range_succ]
    try decide

/-- C6 amended.  The pitch-shift output always has exactly the input's
length; shifting *up* (rate > 1, i.e. positive semitones) leaves trailing
silence (`output[i] = 0` whenever `i·rate` runs past the input length); and
shifting *down* (rate ≤ 1) truncates audible content: the output depends
only on the input samples at positions `j ≤ (len-1)·rate + 1` — everything
beyond that is discarded.  (`rate = 2^(semitones/12)`, so `rate > 1` iff
`semitones > 0`.) -/
theorem processPitchShift_spec :
    (∀ ops b s, bufLength (processPitchShift ops b s) = bufLength b) ∧
    (∀ (rate : ℚ) (input : List ℚ), 0 ≤ rate →
      ((pitchShiftChannel rate input).length = input.length ∧
       (∀ i : ℕ, (input.length : ℚ) ≤ (i : ℚ) * rate →
         (pitchShiftChannel rate input).getD i 0 = 0) ∧
       (∀ input' : List ℚ, input'.length = input.length →
         (∀ j : ℕ, (j : ℚ) ≤ ((input.length : ℚ) - 1) * rate + 1 →
           input.getD j 0 = input'.getD j 0) →
         pitchShiftChannel rate input = pitchShiftChannel rate input'))) := by
  constructor
  · intro ops b s
    unfold processPitchShift bufLength
    cases b.channels with
    | nil => rfl
    | cons c cs => simp [pitchShiftChannel]
  · intro rate input hrate
    refine ⟨by simp [pitchShiftChannel], ?_, ?_⟩
    · intro i hi
      have hfl : (input.length : ℤ) ≤ ⌊(i : ℚ) * rate⌋ := by
        rw [Int.le_floor]
        exact_mod_cast hi
      have hr1 : input.length ≤ (⌊(i : ℚ) * rate⌋).toNat := by omega
      unfold pitchShiftChannel
      by_cases hlt : i < input.length
      · rw [List.getD_eq_getElem?_getD, List.getElem?_map]
        rw [List.getElem?_range hlt]
        simp only [Option.map_some', Option.getD_some]
        unfold interpSample
        rw [if_neg (by omega), if_neg (by omega)]
      · rw [List.getD_eq_default]
        simp only [List.length_map, List.length_range]
        omega
    · intro input' hlen hagree
      unfold pitchShiftChannel
      rw [hlen]
      apply List.map_congr_left
      intro i hi
      have hiL : i < input.length := List.mem_range.1 hi
      have hL1 : 1 ≤ input.length := by omega
      have hcast : (i : ℚ) ≤ (input.length : ℚ) - 1 := by
        have : (i : ℚ) ≤ ((input.length - 1 : ℕ) : ℚ) := by
          exact_mod_cast Nat.le_sub_one_of_lt hiL
        have hL : ((input.length - 1 : ℕ) : ℚ) = (input.length : ℚ) - 1 := by
          have : ((input.length - 1 : ℕ) : ℚ) + 1 = (input.length : ℚ) := by
            exact_mod_cast Nat.succ_pred_eq_of_pos hL1
          linarith
        linarith
      have hmul : (i : ℚ) * rate ≤ ((input.length : ℚ) - 1) * rate :=
        mul_le_mul_of_nonneg_right hcast hrate
      have hfl0 : 0 ≤ ⌊(i : ℚ) * rate⌋ :=
        Int.floor_nonneg.2 (mul_nonneg (by positivity) hrate)
      have hr1le : ((⌊(i : ℚ) * rate⌋.toNat : ℕ) : ℚ) ≤ ((input.length : ℚ) - 1) * rate := by
        have h1 : ((⌊(i : ℚ) * rate⌋.toNat : ℕ) : ℚ) = ((⌊(i : ℚ) * rate⌋ : ℤ) : ℚ) := by
          exact_mod_cast congrArg (fun z : ℤ => (z : ℚ)) (Int.toNat_of_nonneg hfl0)
        rw [h1]
        calc ((⌊(i : ℚ) * rate⌋ : ℤ) : ℚ) ≤ (i : ℚ) * rate := Int.floor_le _
          _ ≤ ((input.length : ℚ) - 1) * rate := hmul
      unfold interpSample
      rw [hlen] at *
      have e1 := hagree (⌊(i : ℚ) * rate⌋).toNat (by linarith)
      have e2 := hagree ((⌊(i : ℚ) * rate⌋).toNat + 1) (by push_cast; linarith)
      simp only [e1, e2]

/-- Witness for the amended C6 at `rate = 2` (12 semitones up) on `[1, 1]`. -/
theorem processPitchShift_spec_witness :
    bufLength (processPitchShift refOps ⟨[[1]], 4⟩ 12) = bufLength ⟨[[1]], 4⟩ ∧
    (pitchShiftChannel 2 [1, 1]).length = 2 ∧
    (pitchShiftChannel 2 [1, 1]).getD 1 0 = 0 ∧
    pitchShiftChannel 2 [1, 1] = pitchShiftChannel 2 [1, 1] := by
  have h2 := processPitchShift_spec.2 2 [1, 1] zero_le_two
  refine ⟨processPitchShift_spec.1 refOps ⟨[[1]], 4⟩ 12, h2.1, ?_, ?_⟩
  · exact h2.2.1 1 (by simp)
  · exact h2.2.2 [1, 1] rfl (fun j hj => rfl)

/-! ## C8: effect determinism (corrected — reverb draws fresh noise) -/

theorem foldl_congr_mem {α β : Type} {l : List α} {f g : β → α → β}
    (h : ∀ acc, ∀ x ∈ l, f acc x = g acc x) :
    ∀ init, l.foldl f init = l.foldl g init := by
  induction l with
  | nil => intro init; rfl
  | cons a as ih =>
    intro init
    simp only [List.foldl_cons]
    rw [h init a (List.mem_cons_self a as)]
    exact ih (fun acc x hx => h acc x (List.mem_cons_of_mem a hx)) _

theorem reverbChannel_congr (wetDry : ℚ) (outLen : ℕ) (imp1 imp2 : ℕ → ℚ)
    (il : ℕ) (input : List ℚ) (h : ∀ j < il, imp1 j = imp2 j) :
    reverbChannel wetDry outLen imp1 il input
      = reverbChannel wetDry outLen imp2 il input := by
  unfold reverbChannel
  apply foldl_congr_mem
  intro acc i _
  apply foldl_congr_mem
  intro acc2 j hj
  rw [h j (List.mem_range.1 hj)]

/-- Counterexample to C8 as stated.  `processReverb` fills its impulse
response with fresh `Math.random()` draws on every call, so two applications
of the reverb with identical buffer and parameters need not agree: with the
draw stream constantly `0` the first output sample is `2/5`, with the stream
constantly `1/2` it is `7/10`.  Both streams are legal values of
`Math.random()` (within `[0,1)`). -/
theorem processReverb_nondeterministic_cex :
    processReverb refOps (fun _ => 0) ⟨[[1]], 2⟩ (1/2) (3/10) ≠
      processReverb refOps (fun _ => (1:ℚ)/2) ⟨[[1]], 2⟩ (1/2) (3/10) := by
  intro h
  have h1 : ((processReverb refOps (fun _ => 0) ⟨[[1]], 2⟩ (1/2) (3/10)).channels.headD
      []).getD 0 0 = 2/5 := by
    norm_num [processReverb, reverbChannel, impulseData, refOps, bufLength, bufDuration,
      List.range_succ, List.enum]
  have h2 : ((processReverb refOps (fun _ => (1:ℚ)/2) ⟨[[1]], 2⟩ (1/2) (3/10)).channels.headD
      []).getD 0 0 = 7/10 := by
    norm_num [processReverb, reverbChannel, impulseData, refOps, bufLength, bufDuration,
      List.range_succ, List.enum]
  rw [h] at h1
  rw [h1] at h2
  norm_num at h2

/-- C8 amended.  Transient enhancement, pitch shift, bit-depth reduction,
distortion and delay contain no random source (they are pure functions of
buffer and parameters in this embedding, as in the code), so they are
reproducible; reverb is deterministic only relative to its random impulse:
its output is a function of the buffer, the parameters, and the first
`2 × impulseLength` noise draws — two runs whose draws agree there produce
identical buffers, while runs with different draws can differ
(`processReverb_nondeterministic_cex`). -/
theorem processReverb_noise_determined (ops : MathOps) (n1 n2 : ℕ → ℚ)
    (b : AudioBuffer) (roomSize wetDry : ℚ)
    (hagree : ∀ i < 2 * (⌊b.sampleRate * roomSize⌋).toNat, n1 i = n2 i) :
    processReverb ops n1 b roomSize wetDry = processReverb ops n2 b roomSize wetDry := by
  unfold processReverb
  simp only [AudioBuffer.mk.injEq, and_true]
  apply List.map_congr_left
  intro p _
  apply reverbChannel_congr
  intro j hj
  unfold impulseData
  rw [hagree]
  have hmod : p.1 % 2 ≤ 1 := by omega
  have h2 : p.1 % 2 * (⌊b.sampleRate * roomSize⌋).toNat
      ≤ (⌊b.sampleRate * roomSize⌋).toNat := by
    calc p.1 % 2 * (⌊b.sampleRate * roomSize⌋).toNat
        ≤ 1 * (⌊b.sampleRate * roomSize⌋).toNat := Nat.mul_le_mul_right _ hmod
      _ = (⌊b.sampleRate * roomSize⌋).toNat := one_mul _
  omega

/-- Witness for the amended C8: two draw streams that agree on the first
`2 × impulseLength` indices (but differ later) give identical reverbs. -/
theorem processReverb_noise_determined_witness :
    processReverb refOps (fun _ => 0) ⟨[[1]], 2⟩ (1/2) (3/10)
      = processReverb refOps (fun i => if i < 100 then 0 else 1/2) ⟨[[1]], 2⟩
        (1/2) (3/10) :=
  processReverb_noise_determined refOps (fun _ => 0)
    (fun i => if i < 100 then 0 else 1/2) ⟨[[1]], 2⟩ (1/2) (3/10)
    (by intro i hi; simp [show i < 100 by revert hi; norm_num; omega])

/-! ## C4: the delay tap loop is bounded -/

theorem delayLoop_tapCount_ge (input : List ℚ) (ds : ℕ) (fb : ℚ) (mt : ℕ) :
    ∀ n out cf tc, mt - tc ≤ n → tc ≤ (delayLoop input ds fb mt out cf tc).2 := by
  intro n
  induction n with
  | zero =>
    intro out cf tc h
    rw [delayLoop]
    split
    next hcond => exact absurd hcond.2 (by omega)
    next => exact le_refl tc
  | succ n ih =>
    intro out cf tc h
    rw [delayLoop]
    split
    next hcond =>
      have := ih (delayTap input ds cf out) (cf * fb) (tc + 1) (by omega)
      omega
    next => exact le_refl tc

theorem delayLoop_tapCount_le (input : List ℚ) (ds : ℕ) (fb : ℚ) (mt : ℕ) :
    ∀ n out cf tc, mt - tc ≤ n → tc ≤ mt → (delayLoop input ds fb mt out cf tc).2 ≤ mt := by
  intro n
  induction n with
  | zero =>
    intro out cf tc h htc
    rw [delayLoop]
    split
    next hcond => exact absurd hcond.2 (by omega)
    next => exact htc
  | succ n ih =>
    intro out cf tc h htc
    rw [delayLoop]
    split
    next hcond => exact ih (delayTap input ds cf out) (cf * fb) (tc + 1) (by omega) hcond.2
    next => exact htc

theorem delayLoop_exit (input : List ℚ) (ds : ℕ) (fb : ℚ) (mt : ℕ) :
    ∀ n out cf tc, mt - tc ≤ n →
      ¬(cf * fb ^ ((delayLoop input ds fb mt out cf tc).2 - tc) > 1/100 ∧
        (delayLoop input ds fb mt out cf tc).2 < mt) := by
  intro n
  induction n with
  | zero =>
    intro out cf tc h
    rw [delayLoop]
    split
    next hcond => exact absurd hcond.2 (by omega)
    next hcond => simpa using hcond
  | succ n ih =>
    intro out cf tc h
    rw [delayLoop]
    split
    next hcond =>
      have hge := delayLoop_tapCount_ge input ds fb mt n
        (delayTap input ds cf out) (cf * fb) (tc + 1) (by omega)
      have hih := ih (delayTap input ds cf out) (cf * fb) (tc + 1) (by omega)
      intro hcontra
      refine hih ⟨?_, hcontra.2⟩
      have heq : cf * fb ^ ((delayLoop input ds fb mt (delayTap input ds cf out)
          (cf * fb) (tc + 1)).2 - tc)
          = (cf * fb) * fb ^ ((delayLoop input ds fb mt (delayTap input ds cf out)
            (cf * fb) (tc + 1)).2 - (tc + 1)) := by
        rw [show (delayLoop input ds fb mt (delayTap input ds cf out) (cf * fb) (tc + 1)).2 - tc
            = ((delayLoop input ds fb mt (delayTap input ds cf out) (cf * fb) (tc + 1)).2
              - (tc + 1)) + 1 from by omega, pow_succ]
        ring
      rw [heq] at hcontra
      exact hcontra.1
    next hcond => simpa using hcond

theorem delayLoop_min (input : List ℚ) (ds : ℕ) (fb : ℚ) (mt : ℕ) :
    ∀ n out cf tc, mt - tc ≤ n →
      ∀ k, tc ≤ k → k < (delayLoop input ds fb mt out cf tc).2 →
        cf * fb ^ (k - tc) > 1/100 ∧ k < mt := by
  intro n
  induction n with
  | zero =>
    intro out cf tc h k hk1 hk2
    rw [delayLoop] at hk2
    split at hk2
    next hcond => exact absurd hcond.2 (by omega)
    next => omega
  | succ n ih =>
    intro out cf tc h k hk1 hk2
    rw [delayLoop] at hk2
    split at hk2
    next hcond =>
      rcases Nat.eq_or_lt_of_le hk1 with rfl | hlt
      · refine ⟨by simpa using hcond.1, hcond.2⟩
      · have hrec := ih (delayTap input ds cf out) (cf * fb) (tc + 1) (by omega) k
          (by omega) hk2
        refine ⟨?_, hrec.2⟩
        have heq : cf * fb ^ (k - tc) = (cf * fb) * fb ^ (k - (tc + 1)) := by
          rw [show k - tc = (k - (tc + 1)) + 1 from by omega, pow_succ]
          ring
        rw [heq]
        exact hrec.1
    next => omega

/-- C4.  For every input buffer, delay time, and feedback in `[0,1)`, the
delay effect's tap `while` loop terminates (it is defined by well-founded
recursion on `maxTaps - tapCount`, the same argument that bounds the JS
loop), performing at most 3 taps when the buffer passes the loop test
(`duration > 2.0`) and at most 10 taps otherwise, and it stops exactly when
the geometric feedback `fb^(t+1)` has dropped to `≤ 0.01` or the tap cap is
reached — every earlier tap still had feedback `> 0.01`. -/
theorem processDelay_taps (b : AudioBuffer) (delayTime fb : ℚ)
    (h0 : 0 ≤ fb) (h1 : fb < 1) :
    processDelayTapCount b delayTime fb ≤ (if bufDuration b > 2 then 3 else 10) ∧
    (fb ^ (processDelayTapCount b delayTime fb + 1) ≤ 1/100 ∨
      processDelayTapCount b delayTime fb = (if bufDuration b > 2 then 3 else 10)) ∧
    (∀ k < processDelayTapCount b delayTime fb, fb ^ (k + 1) > 1/100) := by
  unfold processDelayTapCount delayChannel
  simp only
  set mt : ℕ := if bufDuration b > 2 then 3 else 10 with hmt
  set out0 : List ℚ := (List.range (bufLength b +
    (⌊b.sampleRate * (if bufDuration b > 2 then 1/2 else 1)⌋).toNat)).map
    (fun i => if i < (b.channels.headD []).length then (b.channels.headD []).getD i 0 else 0)
    with hout0
  set ds : ℕ := (⌊delayTime * b.sampleRate⌋).toNat with hds
  set t : ℕ := (delayLoop (b.channels.headD []) ds fb mt out0 fb 0).2 with ht
  have hle : t ≤ mt := delayLoop_tapCount_le _ _ _ _ mt out0 fb 0 (by omega) (by omega)
  have hexit := delayLoop_exit (b.channels.headD []) ds fb mt mt out0 fb 0 (by omega)
  have hmin := delayLoop_min (b.channels.headD []) ds fb mt mt out0 fb 0 (by omega)
  rw [← ht] at hexit hmin
  refine ⟨hle, ?_, ?_⟩
  · rcases not_and_or.1 hexit with hA | hB
    · left
      have : ¬(fb * fb ^ t > 1/100) := by simpa using hA
      have heq : fb ^ (t + 1) = fb * fb ^ t := by rw [pow_succ]; ring
      rw [heq]
      linarith [not_lt.1 this]
    · right
      omega
  · intro k hk
    have := hmin k (Nat.zero_le k) hk
    have heq : fb ^ (k + 1) = fb * fb ^ k := by rw [pow_succ]; ring
    rw [heq]
    simpa using this.1

/-- Witness for C4 at a one-sample buffer, `delayTime = 1/4`, `fb = 1/2`. -/
theorem processDelay_taps_witness :
    processDelayTapCount ⟨[[0]], 4⟩ (1/4) (1/2) ≤
      (if bufDuration ⟨[[0]], 4⟩ > 2 then 3 else 10) :=
  (processDelay_taps ⟨[[0]], 4⟩ (1/4) (1/2) (by simp) one_half_lt_one).1

/-! ## C3: a silent input stays silent (hence finite) through the pipeline -/

theorem foldl_invariant {α β : Type} (P : β → Prop) (f : β → α → β) (l : List α)
    (init : β) (h0 : P init) (hstep : ∀ acc x, P acc → P (f acc x)) :
    P (l.foldl f init) := by
  induction l generalizing init with
  | nil => exact h0
  | cons a as ih => exact ih (f init a) (hstep init a h0)

theorem ZeroCh_set {l : List ℚ} (h : ZeroCh l) (n : ℕ) {v : ℚ} (hv : v = 0) :
    ZeroCh (l.set n v) := by
  intro x hx
  rcases List.mem_or_eq_of_mem_set hx with hx' | rfl
  · exact h x hx'
  · exact hv

theorem ZeroCh_map_range {n : ℕ} {f : ℕ → ℚ} (h : ∀ i, f i = 0) :
    ZeroCh ((List.range n).map f) := by
  intro x hx
  rcases List.mem_map.1 hx with ⟨i, _, rfl⟩
  exact h i

theorem transientGo_zero (a r g s t : ℚ) :
    ∀ (xs : List ℚ) (env : ℚ), ZeroCh xs → ZeroCh (transientGo a r g s t env xs) := by
  intro xs
  induction xs with
  | nil => intro env _ x hx; simp [transientGo] at hx
  | cons y ys ih =>
    intro env h x hx
    rw [transientGo] at hx
    rcases List.mem_cons.1 hx with rfl | hx'
    · rw [h y (List.mem_cons_self y ys)]
      ring
    · exact ih _ (fun z hz => h z (List.mem_cons_of_mem y hz)) x hx'

theorem interpSample_zero {input : List ℚ} (h : ZeroCh input) (rate : ℚ) (i : ℕ) :
    interpSample input rate i = 0 := by
  unfold interpSample
  dsimp only
  split
  · rw [h.getD, h.getD]; ring
  · split
    · exact h.getD _
    · rfl

theorem pitchShiftChannel_zero {input : List ℚ} (h : ZeroCh input) (rate : ℚ) :
    ZeroCh (pitchShiftChannel rate input) :=
  ZeroCh_map_range (interpSample_zero h rate)

theorem bitCrushSample_zero {bits : ℤ} (hb : 1 ≤ bits) :
    bitCrushSample ((2:ℚ) ^ bits) 0 = 0 := by
  obtain ⟨m, rfl⟩ : ∃ m : ℕ, bits = (m : ℤ) + 1 := ⟨(bits - 1).toNat, by omega⟩
  unfold bitCrushSample
  dsimp only
  have h2m : ((2:ℚ) ^ (m : ℤ)) = (((2:ℤ) ^ m : ℤ) : ℚ) := by
    rw [zpow_natCast]; push_cast; rfl
  have harg : ((0:ℚ) + 1) / 2 * ((2:ℚ) ^ ((m:ℤ) + 1)) = (((2:ℤ) ^ m : ℤ) : ℚ) := by
    rw [zpow_add_one₀ (by norm_num), h2m]
    ring
  rw [harg, Int.floor_intCast]
  have hne : ((2:ℚ) ^ ((m:ℤ) + 1)) ≠ 0 := zpow_ne_zero _ (by norm_num)
  have : (((2:ℤ) ^ m : ℤ) : ℚ) / ((2:ℚ) ^ ((m:ℤ) + 1)) * 2 = 1 := by
    rw [zpow_add_one₀ (by norm_num), h2m]
    have : (((2:ℤ) ^ m : ℤ) : ℚ) ≠ 0 := by positivity
    field_simp
  linarith

theorem bitCrushChannel_zero {bits : ℤ} (hb : 1 ≤ bits) {ch : List ℚ} (h : ZeroCh ch) :
    ZeroCh (ch.map (bitCrushSample ((2:ℚ) ^ bits))) := by
  intro x hx
  rcases List.mem_map.1 hx with ⟨y, hy, rfl⟩
  rw [h y hy]
  exact bitCrushSample_zero hb

theorem reverbChannel_zero (wetDry : ℚ) (outLen : ℕ) (imp : ℕ → ℚ) (il : ℕ)
    {input : List ℚ} (h : ZeroCh input) :
    ZeroCh (reverbChannel wetDry outLen imp il input) := by
  unfold reverbChannel
  apply foldl_invariant ZeroCh
  · apply ZeroCh_map_range
    intro i
    split
    · rw [h.getD]; ring
    · rfl
  · intro acc i hacc
    apply foldl_invariant ZeroCh
    · exact hacc
    · intro acc2 j hacc2
      split
      · apply ZeroCh_set hacc2
        rw [hacc2.getD, h.getD]
        ring
      · exact hacc2

theorem delayTap_zero {input : List ℚ} (h : ZeroCh input) (ds : ℕ) (cf : ℚ)
    {out : List ℚ} (hout : ZeroCh out) : ZeroCh (delayTap input ds cf out) := by
  unfold delayTap
  apply foldl_invariant ZeroCh _ _ _ hout
  intro acc i hacc
  split
  · apply ZeroCh_set hacc
    rw [hacc.getD, h.getD]
    ring
  · exact hacc

theorem delayLoop_fst_zero {input : List ℚ} (h : ZeroCh input) (ds : ℕ) (fb : ℚ)
    (mt : ℕ) :
    ∀ n out cf tc, mt - tc ≤ n → ZeroCh out →
      ZeroCh (delayLoop input ds fb mt out cf tc).1 := by
  intro n
  induction n with
  | zero =>
    intro out cf tc hle hout
    rw [delayLoop]
    split
    next hcond => exact absurd hcond.2 (by omega)
    next => exact hout
  | succ n ih =>
    intro out cf tc hle hout
    rw [delayLoop]
    split
    next hcond => exact ih _ (cf * fb) (tc + 1) (by omega) (delayTap_zero h ds cf hout)
    next => exact hout

theorem delayChannel_fst_zero (ds mt : ℕ) (fb : ℚ) (outLen : ℕ) {input : List ℚ}
    (h : ZeroCh input) : ZeroCh (delayChannel ds mt fb outLen input).1 := by
  unfold delayChannel
  apply delayLoop_fst_zero h ds fb mt mt _ fb 0 (by omega)
  apply ZeroCh_map_range
  intro i
  split
  · exact h.getD _
  · rfl

theorem oneShotSample_zero {input : List ℚ} (h : ZeroCh input) (f : FeatureSet)
    (outLen i : ℕ) : oneShotSample input f outLen i = 0 := by
  unfold oneShotSample
  dsimp only
  split
  · exact h.getD _
  · split
    · exact h.getD _
    · split
      · rw [h.getD]; ring
      · rw [h.getD]; ring

theorem processOneShot_zero {input : List ℚ} (h : ZeroCh input) (f : FeatureSet)
    (outLen : ℕ) : ZeroCh (processOneShot input f outLen) :=
  ZeroCh_map_range (oneShotSample_zero h f outLen)

theorem segmentWrite_zero {input : List ℚ} (h : ZeroCh input) (f : FeatureSet)
    (segStart segEnd : ℕ) {out : List ℚ} (hout : ZeroCh out) :
    ZeroCh (segmentWrite input f segStart segEnd out) := by
  unfold segmentWrite
  dsimp only
  split
  · exact hout
  · apply foldl_invariant ZeroCh _ _ _ hout
    intro acc i hacc
    apply ZeroCh_set hacc
    split
    · rw [h.getD]; ring
    · split
      · rw [h.getD]; ring
      · split
        · rw [h.getD]; ring
        · rw [h.getD]; ring

theorem processLoopAudio_zero {input : List ℚ} (h : ZeroCh input) (f : FeatureSet)
    (outLen : ℕ) : ZeroCh (processLoopAudio input f outLen) := by
  unfold processLoopAudio
  have h0 : ZeroCh ((List.range outLen).map
      (fun i => if i < input.length then input.getD i 0 else 0)) := by
    apply ZeroCh_map_range
    intro i
    split
    · exact h.getD _
    · rfl
  split
  · apply foldl_invariant ZeroCh _ _ _ h0
    intro acc p hacc
    exact segmentWrite_zero h f _ _ hacc
  · exact h0

theorem boostGo_zero (c : ℚ) :
    ∀ (xs : List ℚ), ZeroCh xs → ZeroCh (boostGo c 0 xs) := by
  intro xs
  induction xs with
  | nil => intro _ x hx; simp [boostGo] at hx
  | cons y ys ih =>
    intro h x hx
    rw [boostGo] at hx
    have hy : y = 0 := h y (List.mem_cons_self y ys)
    simp only [hy] at hx
    have hval : (0:ℚ) + (0 - 0) * c = 0 := by ring
    rw [hval] at hx
    rcases List.mem_cons.1 hx with rfl | hx'
    · rfl
    · exact ih (fun z hz => h z (List.mem_cons_of_mem y hz)) x hx'

theorem lowpassGo_zero (r : ℚ) :
    ∀ (xs : List ℚ), ZeroCh xs → ZeroCh (lowpassGo r 0 xs) := by
  intro xs
  induction xs with
  | nil => intro _ x hx; simp [lowpassGo] at hx
  | cons y ys ih =>
    intro h x hx
    rw [lowpassGo] at hx
    have hy : y = 0 := h y (List.mem_cons_self y ys)
    simp only [hy] at hx
    have hval : (0:ℚ) * r + 0 * (1 - r) = 0 := by ring
    rw [hval] at hx
    rcases List.mem_cons.1 hx with rfl | hx'
    · rfl
    · exact ih (fun z hz => h z (List.mem_cons_of_mem y hz)) x hx'

theorem applySpectralAdjustment_zero {data : List ℚ} (h : ZeroCh data) (r : ℚ) :
    ZeroCh (applySpectralAdjustment data r) := by
  unfold applySpectralAdjustment
  split
  · match data, h with
    | [], _ => intro x hx; simp at hx
    | d0 :: rest, h =>
      have hd0 : d0 = 0 := h d0 (List.mem_cons_self d0 rest)
      intro x hx
      rcases List.mem_cons.1 hx with rfl | hx'
      · exact hd0
      · rw [hd0] at hx'
        exact boostGo_zero _ rest (fun z hz => h z (List.mem_cons_of_mem d0 hz)) x hx'
  · split
    · match data, h with
      | [], _ => intro x hx; simp at hx
      | d0 :: rest, h =>
        have hd0 : d0 = 0 := h d0 (List.mem_cons_self d0 rest)
        intro x hx
        rcases List.mem_cons.1 hx with rfl | hx'
        · exact hd0
        · rw [hd0] at hx'
          exact lowpassGo_zero _ rest (fun z hz => h z (List.mem_cons_of_mem d0 hz)) x hx'
    · exact h

theorem synthesizeChannel_zero (ops : MathOps) (f : FeatureSet) (isLoop : Bool)
    (outLen : ℕ) {input : List ℚ} (h : ZeroCh input) :
    ZeroCh (synthesizeChannel ops f isLoop outLen input) := by
  unfold synthesizeChannel
  apply applySpectralAdjustment_zero
  intro x hx
  rcases List.mem_map.1 hx with ⟨y, hy, rfl⟩
  have hy0 : y = 0 := by
    cases isLoop with
    | false => exact processOneShot_zero h f outLen y hy
    | true => exact processLoopAudio_zero h f outLen y hy
  rw [hy0]
  ring

theorem processTransientEnhancement_silent {b : AudioBuffer} (g s : ℚ)
    (hb : SilentBuf b) : SilentBuf (processTransientEnhancement b g s) := by
  intro ch hch
  unfold processTransientEnhancement at hch
  dsimp only at hch
  rcases List.mem_map.1 hch with ⟨ch0, hch0, rfl⟩
  exact transientGo_zero _ _ _ _ _ ch0 0 (hb ch0 hch0)

theorem processPitchShift_silent (ops : MathOps) {b : AudioBuffer} (s : ℚ)
    (hb : SilentBuf b) : SilentBuf (processPitchShift ops b s) := by
  intro ch hch
  unfold processPitchShift at hch
  dsimp only at hch
  rcases List.mem_map.1 hch with ⟨ch0, hch0, rfl⟩
  exact pitchShiftChannel_zero (hb ch0 hch0) _

theorem processBitCrush_silent {b : AudioBuffer} (bits : ℤ) (hbits : 1 ≤ bits)
    (hb : SilentBuf b) : SilentBuf (processBitCrush b bits) := by
  intro ch hch
  unfold processBitCrush at hch
  dsimp only at hch
  rcases List.mem_map.1 hch with ⟨ch0, hch0, rfl⟩
  exact bitCrushChannel_zero hbits (hb ch0 hch0)

theorem processDistortion_silent (ops : MathOps) {b : AudioBuffer} (amount : ℚ)
    (hb : SilentBuf b) : SilentBuf (processDistortion ops b amount) := by
  intro ch hch
  unfold processDistortion at hch
  dsimp only at hch
  rcases List.mem_map.1 hch with ⟨ch0, hch0, rfl⟩
  intro x hx
  rcases List.mem_map.1 hx with ⟨y, hy, rfl⟩
  rw [hb ch0 hch0 y hy, zero_mul]
  exact ops.tanh_zero

theorem processReverb_silent (ops : MathOps) (noise : ℕ → ℚ) {b : AudioBuffer}
    (roomSize wetDry : ℚ) (hb : SilentBuf b) :
    SilentBuf (processReverb ops noise b roomSize wetDry) := by
  intro ch hch
  unfold processReverb at hch
  dsimp only at hch
  rcases List.mem_map.1 hch with ⟨p, hp, rfl⟩
  have hp2 : p.2 ∈ b.channels := by
    have := List.mem_enum_iff_getElem?.1 hp
    exact List.getElem?_mem this
  exact reverbChannel_zero _ _ _ _ (hb p.2 hp2)

theorem processDelay_silent {b : AudioBuffer} (delayTime fb : ℚ)
    (hb : SilentBuf b) : SilentBuf (processDelay b delayTime fb) := by
  intro ch hch
  unfold processDelay at hch
  dsimp only at hch
  rcases List.mem_map.1 hch with ⟨ch0, hch0, rfl⟩
  exact delayChannel_fst_zero _ _ _ _ (hb ch0 hch0)

theorem synthesizeAudio_silent (ops : MathOps) {b : AudioBuffer} (f : FeatureSet)
    (isLoop : Bool) (hb : SilentBuf b) : SilentBuf (synthesizeAudio ops b f isLoop) := by
  intro ch hch
  unfold synthesizeAudio at hch
  dsimp only at hch
  rcases List.mem_map.1 hch with ⟨ch0, hch0, rfl⟩
  exact synthesizeChannel_zero ops f isLoop _ (hb ch0 hch0)

theorem generateVariation_silent (ops : MathOps) (rnd : ℕ → ℚ) {b : AudioBuffer}
    (amount : ℚ) (focus : Focus) (hb : SilentBuf b) :
    SilentBuf (generateVariation ops rnd b amount focus) := by
  unfold generateVariation
  exact synthesizeAudio_silent ops _ _ hb

/-- C3.  For every all-zero (silent) input buffer (with at least one frame
and a positive sample rate, as any decoded buffer has), both full variation
pipelines — the hybrid hook recipe (feature extraction, mutation, envelope
synthesis, plus its effect calls) and the pure-DSP `AudioProcessor` recipe
(which additionally exercises transient enhancement) — produce buffers every
sample of which is exactly `0`.  In particular every output sample is
finite (never NaN or Infinity), and the computation is total: every loop of
the model is structurally or well-foundedly bounded, so the pipeline
completes without throwing.  (Every JS division reached on this input has a
nonzero divisor or its result never flows into an output sample; the model's
conventions therefore agree with the JS values here.) -/
theorem silent_pipeline_zero (ops : MathOps) (rnd noise : ℕ → ℕ → ℚ)
    (b : AudioBuffer) (mlBalance : ℚ) (isLoop : Bool) (hb : SilentBuf b)
    (hL : 1 ≤ bufLength b) (hr : 0 < b.sampleRate) :
    (∀ v ∈ hybridGenerateVariations ops rnd noise b mlBalance isLoop, SilentBuf v) ∧
    (∀ v ∈ audioGenerateVariations ops noise b isLoop, SilentBuf v) := by
  constructor
  · intro v hv
    simp only [hybridGenerateVariations, List.mem_cons, List.not_mem_nil, or_false] at hv
    rcases hv with rfl | rfl | rfl | rfl | rfl | rfl | rfl | rfl
    · exact generateVariation_silent ops _ _ _ hb
    · exact generateVariation_silent ops _ _ _ hb
    · exact generateVariation_silent ops _ _ _ hb
    · exact generateVariation_silent ops _ _ _ hb
    · split
      · exact processBitCrush_silent 10 (by omega)
          (generateVariation_silent ops _ _ _ hb)
      · exact generateVariation_silent ops _ _ _ hb
    · exact generateVariation_silent ops _ _ _
        (processPitchShift_silent ops _ hb)
    · exact generateVariation_silent ops _ _ _
        (processReverb_silent ops _ _ _ hb)
    · split
      · exact generateVariation_silent ops _ _ _
          (processDistortion_silent ops _ (processDelay_silent _ _ hb))
      · exact generateVariation_silent ops _ _ _
          (processBitCrush_silent 6 (by omega) (processDistortion_silent ops _ hb))
  · intro v hv
    simp only [audioGenerateVariations, List.mem_cons, List.not_mem_nil, or_false] at hv
    rcases hv with rfl | rfl | rfl | rfl | rfl | rfl | rfl | rfl
    · exact processTransientEnhancement_silent _ _ hb
    · exact processPitchShift_silent ops _ hb
    · exact processPitchShift_silent ops _ hb
    · split
      · exact processBitCrush_silent 10 (by omega) hb
      · exact processBitCrush_silent 8 (by omega) hb
    · exact processReverb_silent ops _ _ _ hb
    · exact processDelay_silent _ _ hb
    · exact processReverb_silent ops _ _ _ (processPitchShift_silent ops _ hb)
    · split
      · exact processDistortion_silent ops _ (processDelay_silent _ _ hb)
      · exact processBitCrush_silent 6 (by omega) (processDistortion_silent ops _ hb)

/-- Witness for C3 at the silent two-sample mono buffer at rate 4, `β = 0`,
both classification flags exercised through the one-shot branch. -/
theorem silent_pipeline_zero_witness :
    (∀ v ∈ hybridGenerateVariations refOps (fun _ _ => 0) (fun _ _ => 0)
      ⟨[[0, 0]], 4⟩ 0 false, SilentBuf v) ∧
    (∀ v ∈ audioGenerateVariations refOps (fun _ _ => 0) ⟨[[0, 0]], 4⟩ false,
      SilentBuf v) :=
  silent_pipeline_zero refOps (fun _ _ => 0) (fun _ _ => 0) ⟨[[0, 0]], 4⟩ 0 false
    (by decide) (by decide) (by decide)

end DrumVar
